import Mathlib

/-!
Verification of the repodump file selection engine and renderers.

This file gives a shallow embedding of the program in src/src/main.rs:
the glob pattern matching used by the three-tier selection policy
(`FileFilter` / `should_include`), the policy construction performed by
`main`, the file collector (`collect_files`), the directory tree renderer
(`generate_directory_tree`), the contents renderer
(`generate_file_contents`) and the token estimator (`estimate_tokens`).
Strings are embedded as lists of Unicode characters, paths as lists of
components (the component lists of Rust PathBuf values).
-/

/-- A character string, embedded as its list of Unicode code points
(Rust String / str values, which the program only ever reads as chars). -/
abbrev Str := List Char

/-- A filesystem path as its list of normal components, modelling Rust
PathBuf values of relative paths (no prefix, root, or dot components
arise in the program: the walker yields descendants of the scan root and
they are relativized with strip_prefix). -/
abbrev FPath := List Str

/-- One compiled glob token. Modelled from the globset crate as the
program uses it (Glob::new with default settings, literal_separator
false): a literal character, `?` matching any single character, `*`
matching any character sequence. With literal_separator disabled both
`*` and `**` compile to "match any sequence", so `**` is represented by
`star` as well (the program only uses literal patterns, `*` and a
trailing `/**`, which compiles to a literal slash followed by `.*`). -/
inductive GTok where
  | lit (c : Char)
  | qmark
  | star
deriving DecidableEq, Repr

/-- A compiled glob pattern: a token list. -/
abbrev GlobPat := List GTok

/-- Fuelled matching step: every recursive call strictly decreases the
combined length of pattern and input, so any fuel above that sum makes
the function total in the ordinary sense. -/
def globMatchF : Nat → GlobPat → Str → Bool
  | 0, _, _ => false
  | Nat.succ fuel, ts, cs =>
    match ts, cs with
    | [], [] => true
    | [], _ :: _ => false
    | GTok.lit _ :: _, [] => false
    | GTok.lit c :: ts2, d :: ds => c == d && globMatchF fuel ts2 ds
    | GTok.qmark :: _, [] => false
    | GTok.qmark :: ts2, _ :: ds => globMatchF fuel ts2 ds
    | GTok.star :: ts2, [] => globMatchF fuel ts2 []
    | GTok.star :: ts2, d :: ds =>
        globMatchF fuel ts2 (d :: ds) || globMatchF fuel (GTok.star :: ts2) ds

/-- Glob matching of a token list against a character list, the
semantics of the regex that globset compiles a pattern to with
literal_separator disabled: literals match themselves, `?` matches one
character, `*` matches any (possibly empty) sequence. -/
def globMatch (ts : GlobPat) (cs : Str) : Bool :=
  globMatchF (ts.length + cs.length + 1) ts cs

/-- Compilation of a glob pattern string to tokens, modelling
globset Glob::new for the pattern forms the program uses (no character
classes, no alternates, no leading recursive prefix): `*` and `**`
both become `star` (they compile to the same regex fragment with
literal_separator disabled), `?` becomes `qmark`, everything else is a
literal character. -/
def parseGlobChars : List Char → GlobPat
  | [] => []
  | '*' :: '*' :: rest => GTok.star :: parseGlobChars rest
  | '*' :: rest => GTok.star :: parseGlobChars rest
  | '?' :: rest => GTok.qmark :: parseGlobChars rest
  | c :: rest => GTok.lit c :: parseGlobChars rest

/-- Embeds build_globset (src/src/main.rs lines 132-140): compile each
pattern string and collect the matchers. In the modelled pattern subset
compilation never fails, so the Result wrapper is dropped. -/
def build_globset (patterns : List String) : List GlobPat :=
  patterns.map (fun p => parseGlobChars p.toList)

/-- GlobSet::is_match: true when any pattern of the set matches. -/
def globSetMatch (gs : List GlobPat) (p : Str) : Bool :=
  gs.any (fun g => globMatch g p)

/-- The FileFilter struct (src/src/main.rs lines 61-65): three compiled
glob sets. -/
structure FileFilter where
  filter_globs : List GlobPat
  exclude_globs : List GlobPat
  include_globs : List GlobPat
deriving DecidableEq

/-- FileFilter::new (src/src/main.rs lines 83-93). -/
def FileFilter.new (filterPats excludePats includePats : List String) : FileFilter :=
  { filter_globs := build_globset filterPats
    exclude_globs := build_globset excludePats
    include_globs := build_globset includePats }

/-- FileFilter::should_include (src/src/main.rs lines 109-122):
step 1 applies the filter patterns when any exist, step 2 the exclude
patterns, step 3 the include override. -/
def FileFilter.should_include (f : FileFilter) (path : Str) : Bool :=
  if f.filter_globs.length > 0 && !(globSetMatch f.filter_globs path) then false
  else if globSetMatch f.exclude_globs path then globSetMatch f.include_globs path
  else true

/-- The standing version control metadata exclusion built in main
(src/src/main.rs line 423). -/
def exclude_git : List String := [(".git"), (".git/**")]

/-- The selection policy main builds for the contents section
(src/src/main.rs lines 424-428): user filter patterns, user excludes
extended with the standing git exclusion, user includes. -/
def content_policy (filterPats excludePats includePats : List String) : FileFilter :=
  FileFilter.new filterPats (excludePats ++ exclude_git) includePats

/-- The selection policy main builds for the tree section when the
prune-tree flag is off (src/src/main.rs line 436): empty filter set,
only the standing git exclusion, user includes. -/
def tree_policy_unpruned (includePats : List String) : FileFilter :=
  FileFilter.new [] exclude_git includePats

theorem should_include_eq (f : FileFilter) (p : Str) :
    f.should_include p =
      ((f.filter_globs.isEmpty || globSetMatch f.filter_globs p) &&
        (!(globSetMatch f.exclude_globs p) || globSetMatch f.include_globs p)) := by
  unfold FileFilter.should_include
  cases hf : f.filter_globs with
  | nil =>
    cases he : globSetMatch f.exclude_globs p <;> simp [hf, he]
  | cons a as =>
    cases hl : globSetMatch f.filter_globs p <;>
      cases he : globSetMatch f.exclude_globs p <;>
        simp [hf, hl, he]

/-- C1: should_include implements the three stage precedence: with an
empty filter set, a path matched by no exclude pattern is included, and
a path matched by some exclude pattern gets the include set match
result; with a non-empty filter set, a path matching no filter pattern
is rejected regardless of the exclude and include sets. -/
theorem should_include_three_stage_precedence (F : FileFilter) (p : Str) :
    (F.filter_globs = [] → globSetMatch F.exclude_globs p = false →
      F.should_include p = true)
    ∧ (F.filter_globs = [] → globSetMatch F.exclude_globs p = true →
      F.should_include p = globSetMatch F.include_globs p)
    ∧ (F.filter_globs ≠ [] → globSetMatch F.filter_globs p = false →
      F.should_include p = false) := by
  refine ⟨fun hf he => ?_, fun hf he => ?_, fun hf hl => ?_⟩
  · simp [should_include_eq, hf, he]
  · cases hi : globSetMatch F.include_globs p <;>
      simp [should_include_eq, hf, he, hi]
  · cases hg : F.filter_globs with
    | nil => exact absurd hg hf
    | cons a as =>
      rw [hg] at hl
      simp [should_include_eq, hg, hl]

theorem should_include_three_stage_precedence_witness :
    FileFilter.should_include ⟨[], [[GTok.lit 'a']], [[GTok.lit 'b']]⟩ ['c'] = true
    ∧ FileFilter.should_include ⟨[], [[GTok.lit 'a']], [[GTok.lit 'b']]⟩ ['a'] =
        globSetMatch [[GTok.lit 'b']] ['a']
    ∧ FileFilter.should_include ⟨[[GTok.lit 'z']], [], []⟩ ['a'] = false :=
  ⟨(should_include_three_stage_precedence ⟨[], [[GTok.lit 'a']], [[GTok.lit 'b']]⟩ ['c']).1
      rfl (by decide),
   (should_include_three_stage_precedence ⟨[], [[GTok.lit 'a']], [[GTok.lit 'b']]⟩ ['a']).2.1
      rfl (by decide),
   (should_include_three_stage_precedence ⟨[[GTok.lit 'z']], [], []⟩ ['a']).2.2
      (by decide) (by decide)⟩

/-- C2 counterexample: with filter {"*.rs"}, exclude {"target/*"},
include {"target/important.rs"}, the claim asserts that
should_include("target/important.rs") is false; the program returns
true (the `*` of "*.rs" matches across the path separator under the
pattern compiler defaults, so the filter stage passes and the include
set overrides the exclusion), as the repository integration test also
asserts. -/
theorem include_override_filter_counterexample :
    (FileFilter.new [("*.rs")] [("target/*")] [("target/important.rs")]).should_include
      (("target/important.rs").toList) = true := by decide

/-- C2 amended: for the policy with filter {"*.rs"}, exclude
{"target/*"}, include {"target/important.rs"}, the path
"target/important.rs" passes the filter stage (the `*` wildcard matches
across path separators) and the include set overrides the exclusion, so
should_include returns true; with an empty filter set and the same
exclude and include sets it returns true as well. -/
theorem include_override_filter_amended :
    (FileFilter.new [("*.rs")] [("target/*")] [("target/important.rs")]).should_include
        (("target/important.rs").toList) = true
    ∧ (FileFilter.new [] [("target/*")] [("target/important.rs")]).should_include
        (("target/important.rs").toList) = true := by decide

/-- C3 counterexample: the tree section policy built by main with the
prune-tree flag off is not the contents policy with filter patterns
dropped: with user exclude pattern "a", no includes, and path "a", the
policy that keeps the full exclude set rejects the path while the tree
policy accepts it (main builds the tree policy from the git exclusion
only, dropping the user excludes). -/
theorem tree_policy_full_exclude_counterexample :
    (tree_policy_unpruned []).should_include ['a'] = true
    ∧ (FileFilter.new [] ([("a")] ++ exclude_git) []).should_include ['a'] = false := by
  decide

/-- C3 amended: when the prune-tree flag is off, the tree section
policy applies no filter patterns, only the standing version control
metadata exclusion (not the user exclude patterns), and the user
include patterns: a path is included exactly when it is not matched by
the git exclusion or is matched by some include pattern. -/
theorem tree_policy_unpruned_characterization (includePats : List String) (p : Str) :
    (tree_policy_unpruned includePats).should_include p =
      (!(globSetMatch (build_globset exclude_git) p) ||
        globSetMatch (build_globset includePats) p) := by
  have h := should_include_eq (tree_policy_unpruned includePats) p
  simpa [tree_policy_unpruned, FileFilter.new, build_globset] using h

/-- C10: enlarging the include set is monotone: a path included under
include set I stays included when the include set grows to I ++ J,
for every filter set and exclude set. -/
theorem should_include_monotone_includes (F : FileFilter) (J : List GlobPat) (p : Str)
    (h : F.should_include p = true) :
    FileFilter.should_include ⟨F.filter_globs, F.exclude_globs, F.include_globs ++ J⟩ p
      = true := by
  rw [should_include_eq] at h ⊢
  simp only [globSetMatch, List.any_append] at h ⊢
  cases hf : F.filter_globs.isEmpty <;>
    cases hl : F.filter_globs.any (fun g => globMatch g p) <;>
      cases he : F.exclude_globs.any (fun g => globMatch g p) <;>
        cases hi : F.include_globs.any (fun g => globMatch g p) <;>
          simp_all

theorem should_include_monotone_includes_witness :
    FileFilter.should_include ⟨[], [[GTok.lit 'a']], [[GTok.lit 'a']] ++ [[GTok.qmark]]⟩
      ['a'] = true :=
  should_include_monotone_includes ⟨[], [[GTok.lit 'a']], [[GTok.lit 'a']]⟩
    [[GTok.qmark]] ['a'] (by decide)

/-- Strict lexicographic order on lists derived from a strict order on
elements, the shape of Rust Ord for String (byte order equals code
point order for UTF-8) and for Path (component order). -/
def lexLt (lt : α → α → Bool) : List α → List α → Bool
  | [], [] => false
  | [], _ :: _ => true
  | _ :: _, [] => false
  | x :: xs, y :: ys => if lt x y then true else if lt y x then false else lexLt lt xs ys

theorem lexLt_irrefl (lt : α → α → Bool) (h1 : ∀ u, lt u u = false) :
    ∀ l, lexLt lt l l = false
  | [] => rfl
  | x :: xs => by simp [lexLt, h1 x, lexLt_irrefl lt h1 xs]

theorem lexLt_conn (lt : α → α → Bool)
    (h3 : ∀ u v, lt u v = false → lt v u = false → u = v) :
    ∀ l1 l2, lexLt lt l1 l2 = false → lexLt lt l2 l1 = false → l1 = l2
  | [], [], _hab, _hba => rfl
  | [], _ :: _, hab, _hba => by simp [lexLt] at hab
  | _ :: _, [], _hab, hba => by simp [lexLt] at hba
  | x :: xs, y :: ys, hab, hba => by
    rw [lexLt] at hab hba
    cases hxy : lt x y with
    | true =>
      rw [if_pos hxy] at hab
      exact Bool.noConfusion hab
    | false =>
      cases hyx : lt y x with
      | true =>
        rw [if_pos hyx] at hba
        exact Bool.noConfusion hba
      | false =>
        rw [if_neg (by simp [hxy]), if_neg (by simp [hyx])] at hab
        rw [if_neg (by simp [hyx]), if_neg (by simp [hxy])] at hba
        have hx := h3 x y hxy hyx
        subst hx
        rw [lexLt_conn lt h3 xs ys hab hba]

theorem lexLt_trans (lt : α → α → Bool)
    (h2 : ∀ u v w, lt u v = true → lt v w = true → lt u w = true)
    (h3 : ∀ u v, lt u v = false → lt v u = false → u = v) :
    ∀ l1 l2 l3, lexLt lt l1 l2 = true → lexLt lt l2 l3 = true → lexLt lt l1 l3 = true
  | [], [], _l3, hab, _hbc => by simp [lexLt] at hab
  | [], _ :: _, [], _hab, hbc => by simp [lexLt] at hbc
  | [], _ :: _, _ :: _, _hab, _hbc => rfl
  | _ :: _, [], _l3, hab, _hbc => by simp [lexLt] at hab
  | _ :: _, _ :: _, [], _hab, hbc => by simp [lexLt] at hbc
  | x :: xs, y :: ys, z :: zs, hab, hbc => by
    rw [lexLt] at hab hbc ⊢
    cases hxy : lt x y with
    | true =>
      cases hyz : lt y z with
      | true => rw [if_pos (h2 x y z hxy hyz)]
      | false =>
        cases hzy : lt z y with
        | true =>
          rw [if_neg (by simp [hyz]), if_pos hzy] at hbc
          exact Bool.noConfusion hbc
        | false =>
          have hEq := h3 y z hyz hzy
          subst hEq
          rw [if_pos hxy]
    | false =>
      cases hyx : lt y x with
      | true =>
        rw [if_neg (by simp [hxy]), if_pos hyx] at hab
        exact Bool.noConfusion hab
      | false =>
        have hEq := h3 x y hxy hyx
        subst hEq
        rw [if_neg (by simp [hxy]), if_neg (by simp [hyx])] at hab
        cases hxz : lt x z with
        | true => simp
        | false =>
          cases hzx : lt z x with
          | true =>
            rw [if_neg (by simp [hxz]), if_pos hzx] at hbc
            exact Bool.noConfusion hbc
          | false =>
            have hEq2 := h3 x z hxz hzx
            subst hEq2
            rw [if_neg (by simp [hxz]), if_neg (by simp [hzx])] at hbc
            rw [if_neg (by simp [hxz]), if_neg (by simp [hzx])]
            exact lexLt_trans lt h2 h3 xs ys zs hab hbc

/-- Rust char comparison. -/
def charLt (c d : Char) : Bool := decide (c < d)

theorem charLt_irrefl (a : Char) : charLt a a = false := by simp [charLt]

theorem charLt_trans (a b c : Char) (h1 : charLt a b = true) (h2 : charLt b c = true) :
    charLt a c = true := by
  simp only [charLt, decide_eq_true_eq] at h1 h2 ⊢
  exact lt_trans h1 h2

theorem charLt_conn (a b : Char) (h1 : charLt a b = false) (h2 : charLt b a = false) :
    a = b := by
  simp only [charLt, decide_eq_false_iff_not, not_lt] at h1 h2
  exact le_antisymm h2 h1

/-- Strict byte/code point order on strings (Rust String and OsStr
ordering on UTF-8 data). -/
def strLt : Str → Str → Bool := lexLt charLt

theorem strLt_irrefl (a : Str) : strLt a a = false := lexLt_irrefl charLt charLt_irrefl a

theorem strLt_trans {a b c : Str} (h1 : strLt a b = true) (h2 : strLt b c = true) :
    strLt a c = true := lexLt_trans charLt charLt_trans charLt_conn a b c h1 h2

theorem strLt_conn {a b : Str} (h1 : strLt a b = false) (h2 : strLt b a = false) : a = b :=
  lexLt_conn charLt charLt_conn a b h1 h2

theorem strLt_asymm {a b : Str} (h : strLt a b = true) : strLt b a = false := by
  cases hba : strLt b a with
  | false => rfl
  | true =>
    have h2 := strLt_trans h hba
    rw [strLt_irrefl] at h2
    exact Bool.noConfusion h2

/-- Strict component-wise lexicographic order on paths: the order of
Rust Ord for Path and PathBuf, which compares the component sequences,
each component by byte order. -/
def pathLt : FPath → FPath → Bool := lexLt strLt

/-- Non-strict path order, as used by Vec sort on PathBuf values. -/
def pathLe (a b : FPath) : Bool := !(pathLt b a)

theorem pathLt_trans {a b c : FPath} (h1 : pathLt a b = true) (h2 : pathLt b c = true) :
    pathLt a c = true :=
  lexLt_trans strLt (fun _ _ _ => strLt_trans) (fun _ _ => strLt_conn) a b c h1 h2

theorem pathLt_conn {a b : FPath} (h1 : pathLt a b = false) (h2 : pathLt b a = false) :
    a = b := lexLt_conn strLt (fun _ _ => strLt_conn) a b h1 h2

theorem pathLt_irrefl (a : FPath) : pathLt a a = false :=
  lexLt_irrefl strLt strLt_irrefl a

theorem pathLe_trans {a b c : FPath} (h1 : pathLe a b = true) (h2 : pathLe b c = true) :
    pathLe a c = true := by
  simp only [pathLe, Bool.not_eq_true'] at h1 h2 ⊢
  cases hca : pathLt c a with
  | false => rfl
  | true =>
    cases hbc : pathLt b c with
    | true =>
      have h4 := pathLt_trans hbc hca
      rw [h4] at h1
      exact Bool.noConfusion h1
    | false =>
      have hEq := pathLt_conn hbc h2
      subst hEq
      rw [hca] at h1
      exact Bool.noConfusion h1

theorem pathLe_total (a b : FPath) : (pathLe a b || pathLe b a) = true := by
  simp only [pathLe]
  cases h1 : pathLt b a with
  | false => simp
  | true =>
    cases h2 : pathLt a b with
    | false => simp
    | true =>
      have h4 := pathLt_trans h1 h2
      rw [pathLt_irrefl] at h4
      exact Bool.noConfusion h4

/-- The slash-joined display string of a relative path: Rust
to_string_lossy on a Unix relative PathBuf, which is also the candidate
string that the glob sets are matched against. -/
def joinSlash : FPath → Str
  | [] => []
  | [p] => p
  | p :: ps => p ++ '/' :: joinSlash ps

/-- One entry yielded by the walker (the external ignore::WalkBuilder
collaborator): its absolute path, and whether it is a regular file. -/
structure WalkEntry where
  path : FPath
  isFile : Bool
deriving DecidableEq

/-- Path::strip_prefix on component lists: drop the root components
when they are a prefix, fail otherwise. -/
def stripRoot (root p : FPath) : Option FPath :=
  if root.isPrefixOf p then some (p.drop root.length) else none

/-- The walking loop of collect_files (src/src/main.rs lines 201-216):
keep each regular file whose root-relative path passes the policy, in
walk order; a failure to relativize aborts the whole collection. -/
def collectKept (root : FPath) (f : FileFilter) : List WalkEntry → Option (List FPath)
  | [] => some []
  | e :: es =>
    if e.isFile then
      match stripRoot root e.path with
      | none => none
      | some rel =>
        if f.should_include (joinSlash rel) then
          (collectKept root f es).map (fun l => rel :: l)
        else collectKept root f es
    else collectKept root f es

/-- Vec::sort on PathBuf values (src/src/main.rs line 218): a stable
sort by the component-wise path order. The order is antisymmetric, so
the sorted permutation is unique and insertion sort computes exactly
the result of the Rust merge sort. -/
def sortPaths (l : List FPath) : List FPath :=
  l.insertionSort (fun a b => pathLe a b = true)

/-- collect_files (src/src/main.rs lines 184-220) with the walker
factored out as a list of entries: filter the walked files through the
policy, then sort the surviving relative paths. -/
def collect_files (root : FPath) (f : FileFilter) (entries : List WalkEntry) :
    Option (List FPath) :=
  (collectKept root f entries).map sortPaths

/-- Non-strict byte/code point order on strings. -/
def strLe (a b : Str) : Bool := !(strLt b a)

/-- C4 counterexample: collect_files does not sort by the slash-joined
string form. With files "a/b.rs" and "a.rs" under root "r", the
returned list is ["a/b.rs", "a.rs"] (PathBuf component order: the
component "a" precedes "a.rs"), yet in plain string order
"a.rs" < "a/b.rs" because '.' precedes '/', so the adjacent pair
violates the claimed string ordering. -/
theorem collect_files_string_sort_counterexample :
    collect_files [['r']] (FileFilter.new [] [] [])
        [⟨[['r'], ['a'], ['b', '.', 'r', 's']], true⟩,
         ⟨[['r'], ['a', '.', 'r', 's']], true⟩]
      = some [[['a'], ['b', '.', 'r', 's']], [['a', '.', 'r', 's']]]
    ∧ strLe (joinSlash [['a'], ['b', '.', 'r', 's']]) (joinSlash [['a', '.', 'r', 's']])
      = false := by decide

/-- C4 amended: collect_files returns the surviving relative paths
sorted by the component-wise lexicographic path order (the ordering of
Rust PathBuf: compare component sequences, each component by byte
order), which can disagree with plain string order on the slash-joined
form; every pair of entries in the returned list, in particular every
adjacent pair, is ordered by that path order. -/
theorem collect_files_sorted_by_path_order (root : FPath) (F : FileFilter)
    (entries : List WalkEntry) (files : List FPath)
    (h : collect_files root F entries = some files) :
    files.Pairwise (fun a b => pathLe a b = true) := by
  unfold collect_files at h
  cases hk : collectKept root F entries with
  | none => rw [hk] at h; exact Option.noConfusion h
  | some kept =>
    rw [hk] at h
    simp only [Option.map_some'] at h
    injection h with h
    subst h
    haveI : IsTotal FPath (fun a b => pathLe a b = true) :=
      ⟨fun a b => Bool.or_eq_true_iff.mp (pathLe_total a b)⟩
    haveI : IsTrans FPath (fun a b => pathLe a b = true) :=
      ⟨fun _ _ _ => pathLe_trans⟩
    exact List.sorted_insertionSort _ kept

theorem collect_files_sorted_by_path_order_witness :
    List.Pairwise (fun a b => pathLe a b = true) [[['a']], [['b']]] :=
  collect_files_sorted_by_path_order [['r']] (FileFilter.new [] [] [])
    [⟨[['r'], ['b']], true⟩, ⟨[['r'], ['a']], true⟩] [[['a']], [['b']]] (by decide)

/-- Rust str::split on '/': the list of slash-separated pieces, always
at least one piece (possibly empty pieces). -/
def splitSlash : Str → List Str
  | [] => [[]]
  | c :: cs =>
    if c = '/' then [] :: splitSlash cs
    else
      match splitSlash cs with
      | p :: ps => (c :: p) :: ps
      | [] => [[c]]

/-- String::replace of every backslash by a slash, applied by
generate_directory_tree to the displayed file path. -/
def normalizeSlashes (s : Str) : Str :=
  s.map (fun c => if c = '\\' then '/' else c)

/-- BTreeSet insert on a strictly sorted list of strings: place the new
element at its ordered position, keep the list unchanged when it is
already present. -/
def setInsert (x : Str) : List Str → List Str
  | [] => [x]
  | y :: ys =>
    if strLt x y then x :: y :: ys
    else if x = y then y :: ys
    else y :: setInsert x ys

/-- BTreeMap entry(k).or_insert_with(BTreeSet::new).insert(v) on a
key-sorted association list: create the key at its ordered position
with the singleton set, or add the value to the existing set. -/
def mapAdd (k v : Str) : List (Str × List Str) → List (Str × List Str)
  | [] => [(k, [v])]
  | (k2, vs) :: rest =>
    if strLt k k2 then (k, [v]) :: (k2, vs) :: rest
    else if k = k2 then (k2, setInsert v vs) :: rest
    else (k2, vs) :: mapAdd k v rest

/-- BTreeMap::get on the association list. -/
def mapGet (m : List (Str × List Str)) (k : Str) : Option (List Str) :=
  match m with
  | [] => none
  | (k2, vs) :: rest => if k2 = k then some vs else mapGet rest k

/-- The builder state of generate_directory_tree: the all_paths set and
the directory_children map (src/src/main.rs lines 247-248). -/
structure TreeSt where
  all_paths : List Str
  directory_children : List (Str × List Str)
deriving DecidableEq

/-- A single insertion performed by the structure-building loop: an
all_paths insertion or a parent-to-child edge insertion. -/
inductive TUpd where
  | apath (p : Str)
  | edge (parent child : Str)
deriving DecidableEq

/-- Apply one insertion to the builder state. -/
def applyUpd (st : TreeSt) : TUpd → TreeSt
  | TUpd.apath p => { st with all_paths := setInsert p st.all_paths }
  | TUpd.edge k v => { st with directory_children := mapAdd k v st.directory_children }

/-- Apply a list of insertions in order. -/
def applyUpds (st : TreeSt) (us : List TUpd) : TreeSt := us.foldl applyUpd st

/-- The insertions of the inner per-part loop of generate_directory_tree
(src/src/main.rs lines 259-277), emitted in loop order: at index i with
accumulated current_path, extend current_path by a separator (when
i > 0) and the part, record it in all_paths when it is a directory
prefix (i < total - 1), and record the parent-to-child edge. -/
def updsOfParts (total : Nat) : Nat → Str → List Str → List TUpd
  | _, _, [] => []
  | i, current, part :: rest =>
    let cur2 := if i > 0 then current ++ '/' :: part else current ++ part
    (if i < total - 1 then [TUpd.apath cur2] else []) ++
      TUpd.edge current cur2 :: updsOfParts total (i + 1) cur2 rest

/-- The insertions performed for one file of the outer loop
(src/src/main.rs lines 251-278): insert the normalized file path
string into all_paths, then run the per-part loop over its
slash-separated parts. -/
def updsOfFile (f : FPath) : List TUpd :=
  let s := normalizeSlashes (joinSlash f)
  TUpd.apath s :: updsOfParts (splitSlash s).length 0 [] (splitSlash s)

/-- The builder state produced from the file list. -/
def buildTreeSt (files : List FPath) : TreeSt :=
  files.foldl (fun st f => applyUpds st (updsOfFile f)) ⟨[], []⟩

/-- Rust split('/').last().unwrap_or(child): the final path segment. -/
def lastSeg (s : Str) : Str := (splitSlash s).getLastD s

/-- The tree connector glyph for an interior or last sibling. -/
def treeConnector (isLast : Bool) : Str :=
  if isLast then ("└── ").toList else ("├── ").toList

mutual
/-- print_tree_recursive (src/src/main.rs lines 281-326): render the
children of current_dir. The Rust recursion terminates because every
nested call descends to a strictly longer key of the finite map; the
fuel argument makes that explicit and the top-level call passes more
fuel than the map has entries, which the descent can never exhaust. -/
def printTreeRec (m : List (Str × List Str)) : Nat → Str → Str → Str
  | 0, _, _ => []
  | Nat.succ fuel, current, pref =>
    match mapGet m current with
    | none => []
    | some children => renderKids m fuel pref children 0 children.length
termination_by fuel _ _ => (fuel, 0)

/-- The loop over an enumerated children vector: skip empty children,
emit the connector line (with a trailing slash for directories), and
recurse with the extended indentation. -/
def renderKids (m : List (Str × List Str)) (fuel : Nat) (pref : Str) :
    List Str → Nat → Nat → Str
  | [], _, _ => []
  | child :: rest, i, total =>
    if child = [] then renderKids m fuel pref rest (i + 1) total
    else
      let isLast := i == total - 1
      let line := pref ++ treeConnector isLast ++ lastSeg child ++
        (if (mapGet m child).isSome then ['/'] else []) ++ ['\n']
      let childPref := pref ++ (if isLast then ("    ").toList else ("│   ").toList)
      line ++ printTreeRec m fuel child childPref ++
        renderKids m fuel pref rest (i + 1) total
termination_by kids _ _ => (fuel, kids.length + 1)
end

/-- generate_directory_tree (src/src/main.rs lines 230-332), with the
root display name (root_path.file_name) taken as a parameter: the
header and root lines, and for a non-empty file list the rendered
hierarchy built from the parent-to-children map. -/
def generate_directory_tree (rootName : Str) (files : List FPath) : Str :=
  let tree := ("Directory Structure:\n").toList ++ rootName ++ ['/', '\n']
  if files.isEmpty then tree
  else
    let st := buildTreeSt files
    tree ++ printTreeRec st.directory_children (st.directory_children.length + 1) [] []

theorem strLt_cases (a b : Str) :
    (strLt a b = true ∧ strLt b a = false ∧ a ≠ b)
    ∨ (a = b ∧ strLt a b = false ∧ strLt b a = false)
    ∨ (strLt b a = true ∧ strLt a b = false ∧ a ≠ b) := by
  cases hab : strLt a b with
  | true =>
    refine Or.inl ⟨rfl, strLt_asymm hab, fun hEq => ?_⟩
    subst hEq
    rw [strLt_irrefl] at hab
    exact Bool.noConfusion hab
  | false =>
    cases hba : strLt b a with
    | false => exact Or.inr (Or.inl ⟨strLt_conn hab hba, rfl, rfl⟩)
    | true =>
      refine Or.inr (Or.inr ⟨rfl, rfl, fun hEq => ?_⟩)
      subst hEq
      rw [strLt_irrefl] at hba
      exact Bool.noConfusion hba

theorem setInsert_comm (a b : Str) : ∀ s, setInsert a (setInsert b s) = setInsert b (setInsert a s)
  | [] => by
    rcases strLt_cases a b with ⟨h1, h2, h3⟩ | ⟨h1, h2, h3⟩ | ⟨h1, h2, h3⟩
    · simp [setInsert, h1, h2, h3, Ne.symm h3]
    · subst h1; rfl
    · simp [setInsert, h1, h2, h3, Ne.symm h3]
  | y :: ys => by
    rcases strLt_cases a y with ⟨ha1, ha2, ha3⟩ | ⟨ha1, ha2, ha3⟩ | ⟨ha1, ha2, ha3⟩
    · rcases strLt_cases b y with ⟨hb1, hb2, hb3⟩ | ⟨hb1, hb2, hb3⟩ | ⟨hb1, hb2, hb3⟩
      · rcases strLt_cases a b with ⟨hc1, hc2, hc3⟩ | ⟨hc1, hc2, hc3⟩ | ⟨hc1, hc2, hc3⟩
        · simp [setInsert, ha1, hb1, hc1, hc2, hc3, Ne.symm hc3]
        · subst hc1; rfl
        · simp [setInsert, ha1, hb1, hc1, hc2, hc3, Ne.symm hc3]
      · subst hb1
        simp [setInsert, ha1, ha2, ha3, strLt_irrefl]
      · have hc1 : strLt a b = true := strLt_trans ha1 hb1
        have hc2 : strLt b a = false := strLt_asymm hc1
        have hc3 : a ≠ b := fun hEq => by
          subst hEq
          rw [strLt_irrefl] at hc1
          exact Bool.noConfusion hc1
        simp [setInsert, ha1, hb1, hb2, hb3, hc1, hc2, hc3, Ne.symm hc3]
    · subst ha1
      rcases strLt_cases b a with ⟨hb1, hb2, hb3⟩ | ⟨hb1, hb2, hb3⟩ | ⟨hb1, hb2, hb3⟩
      · simp [setInsert, hb1, hb2, hb3, Ne.symm hb3, strLt_irrefl]
      · subst hb1; rfl
      · simp [setInsert, hb1, hb2, hb3, Ne.symm hb3, strLt_irrefl]
    · rcases strLt_cases b y with ⟨hb1, hb2, hb3⟩ | ⟨hb1, hb2, hb3⟩ | ⟨hb1, hb2, hb3⟩
      · have hc1 : strLt b a = true := strLt_trans hb1 ha1
        have hc2 : strLt a b = false := strLt_asymm hc1
        have hc3 : b ≠ a := fun hEq => by
          subst hEq
          rw [strLt_irrefl] at hc1
          exact Bool.noConfusion hc1
        simp [setInsert, ha1, ha2, ha3, hb1, hc1, hc2, hc3, Ne.symm hc3]
      · subst hb1
        simp [setInsert, ha1, ha2, ha3, strLt_irrefl]
      · simp [setInsert, ha2, ha3, hb2, hb3]
        rw [setInsert_comm a b ys]

theorem mapAdd_comm (k1 v1 k2 v2 : Str) :
    ∀ m, mapAdd k1 v1 (mapAdd k2 v2 m) = mapAdd k2 v2 (mapAdd k1 v1 m)
  | [] => by
    rcases strLt_cases k1 k2 with ⟨h1, h2, h3⟩ | ⟨h1, h2, h3⟩ | ⟨h1, h2, h3⟩
    · simp [mapAdd, h1, h2, h3, Ne.symm h3]
    · subst h1
      simp [mapAdd, strLt_irrefl]
      exact setInsert_comm v1 v2 []
    · simp [mapAdd, h1, h2, h3, Ne.symm h3]
  | (k, vs) :: rest => by
    rcases strLt_cases k1 k with ⟨ha1, ha2, ha3⟩ | ⟨ha1, ha2, ha3⟩ | ⟨ha1, ha2, ha3⟩
    · rcases strLt_cases k2 k with ⟨hb1, hb2, hb3⟩ | ⟨hb1, hb2, hb3⟩ | ⟨hb1, hb2, hb3⟩
      · rcases strLt_cases k1 k2 with ⟨hc1, hc2, hc3⟩ | ⟨hc1, hc2, hc3⟩ | ⟨hc1, hc2, hc3⟩
        · simp [mapAdd, ha1, hb1, hc1, hc2, hc3, Ne.symm hc3]
        · subst hc1
          simp [mapAdd, ha1, strLt_irrefl]
          exact setInsert_comm v1 v2 []
        · simp [mapAdd, ha1, hb1, hc1, hc2, hc3, Ne.symm hc3]
      · subst hb1
        simp [mapAdd, ha1, ha2, ha3, Ne.symm ha3, strLt_irrefl]
      · have hc1 : strLt k1 k2 = true := strLt_trans ha1 hb1
        have hc2 := strLt_asymm hc1
        have hc3 : k1 ≠ k2 := fun hEq => by
          subst hEq
          rw [strLt_irrefl] at hc1
          exact Bool.noConfusion hc1
        simp [mapAdd, ha1, hb1, hb2, hb3, hc1, hc2, hc3, Ne.symm hc3]
    · subst ha1
      rcases strLt_cases k2 k1 with ⟨hb1, hb2, hb3⟩ | ⟨hb1, hb2, hb3⟩ | ⟨hb1, hb2, hb3⟩
      · simp [mapAdd, hb1, hb2, hb3, Ne.symm hb3, strLt_irrefl]
      · subst hb1
        simp [mapAdd, strLt_irrefl]
        exact setInsert_comm v1 v2 vs
      · simp [mapAdd, hb1, hb2, hb3, Ne.symm hb3, strLt_irrefl]
    · rcases strLt_cases k2 k with ⟨hb1, hb2, hb3⟩ | ⟨hb1, hb2, hb3⟩ | ⟨hb1, hb2, hb3⟩
      · have hc1 : strLt k2 k1 = true := strLt_trans hb1 ha1
        have hc2 := strLt_asymm hc1
        have hc3 : k2 ≠ k1 := fun hEq => by
          subst hEq
          rw [strLt_irrefl] at hc1
          exact Bool.noConfusion hc1
        simp [mapAdd, ha1, ha2, ha3, hb1, hc1, hc2, hc3, Ne.symm hc3]
      · subst hb1
        simp [mapAdd, ha2, ha3, strLt_irrefl]
      · simp [mapAdd, ha2, ha3, hb2, hb3]
        rw [mapAdd_comm k1 v1 k2 v2 rest]

theorem applyUpd_comm (st : TreeSt) (u v : TUpd) :
    applyUpd (applyUpd st u) v = applyUpd (applyUpd st v) u := by
  cases st with
  | mk ap dc =>
    cases u with
    | apath p =>
      cases v with
      | apath q => simp [applyUpd, setInsert_comm p q ap]
      | edge k2 v2 => rfl
    | edge k1 v1 =>
      cases v with
      | apath q => rfl
      | edge k2 v2 => simp [applyUpd, mapAdd_comm k2 v2 k1 v1 dc]

theorem applyUpds_upd_comm :
    ∀ (us : List TUpd) (st : TreeSt) (u : TUpd),
      applyUpd (applyUpds st us) u = applyUpds (applyUpd st u) us
  | [], _, _ => rfl
  | v :: vs, st, u => by
    show applyUpd (applyUpds (applyUpd st v) vs) u = applyUpds (applyUpd (applyUpd st u) v) vs
    rw [applyUpds_upd_comm vs (applyUpd st v) u, applyUpd_comm st v u]

theorem applyUpds_comm :
    ∀ (vs : List TUpd) (st : TreeSt) (us : List TUpd),
      applyUpds (applyUpds st us) vs = applyUpds (applyUpds st vs) us
  | [], _, _ => rfl
  | v :: vs, st, us => by
    show applyUpds (applyUpd (applyUpds st us) v) vs
      = applyUpds (applyUpds (applyUpd st v) vs) us
    rw [applyUpds_upd_comm us st v]
    exact applyUpds_comm vs (applyUpd st v) us

theorem buildTreeSt_perm {files1 files2 : List FPath} (h : files1.Perm files2) :
    buildTreeSt files1 = buildTreeSt files2 := by
  unfold buildTreeSt
  exact h.foldl_eq'
    (fun f1 _ f2 _ st => applyUpds_comm (updsOfFile f2) st (updsOfFile f1)) ⟨[], []⟩

/-- C5: tree rendering is insertion order independent: permuting the
file list leaves the output of generate_directory_tree unchanged,
because the builder state is a pair of ordered set and map whose
insertions commute. -/
theorem generate_directory_tree_perm (rootName : Str) {files1 files2 : List FPath}
    (h : files1.Perm files2) :
    generate_directory_tree rootName files1 = generate_directory_tree rootName files2 := by
  have hb : buildTreeSt files1 = buildTreeSt files2 := buildTreeSt_perm h
  have he : files1.isEmpty = files2.isEmpty := by
    cases files1 with
    | nil =>
      have := h.length_eq
      cases files2 with
      | nil => rfl
      | cons b bs => simp at this
    | cons a as =>
      have := h.length_eq
      cases files2 with
      | nil => simp at this
      | cons b bs => rfl
  simp only [generate_directory_tree, hb, he]

theorem generate_directory_tree_perm_witness :
    generate_directory_tree ['r'] [[['a']], [['b'], ['c']]]
      = generate_directory_tree ['r'] [[['b'], ['c']], [['a']]] :=
  generate_directory_tree_perm ['r'] (by decide)

/-- C7: for every root display name, rendering an empty file list
produces exactly the header line followed by the root line naming the
scanned directory and nothing else; this is exactly two lines (two
newline characters, each ending one line) whenever the display name
itself contains no newline. -/
theorem generate_directory_tree_empty (rootName : Str) :
    generate_directory_tree rootName []
      = ("Directory Structure:\n").toList ++ rootName ++ ['/', '\n']
    ∧ (rootName.count '\n' = 0 →
      (generate_directory_tree rootName []).count '\n' = 2) := by
  have h1 : generate_directory_tree rootName []
      = ("Directory Structure:\n").toList ++ rootName ++ ['/', '\n'] := rfl
  refine ⟨h1, fun h => ?_⟩
  rw [h1, List.count_append, List.count_append, h]
  decide

theorem generate_directory_tree_empty_witness :
    generate_directory_tree ['r'] []
      = ("Directory Structure:\n").toList ++ ['r'] ++ ['/', '\n']
    ∧ (generate_directory_tree ['r'] []).count '\n' = 2 :=
  ⟨(generate_directory_tree_empty ['r']).1,
   (generate_directory_tree_empty ['r']).2 (by decide)⟩

/-- The key list of the children map. -/
def mapKeys (m : List (Str × List Str)) : List Str := m.map Prod.fst

theorem mem_setInsert {x a : Str} :
    ∀ {s : List Str}, x ∈ setInsert a s ↔ x = a ∨ x ∈ s := by
  intro s
  induction s with
  | nil => simp [setInsert]
  | cons y ys ih =>
    by_cases h1 : strLt a y = true
    · simp [setInsert, h1]
    · by_cases h2 : a = y
      · subst h2
        simp only [setInsert, if_neg h1, if_pos rfl]
        constructor
        · exact fun h => Or.inr h
        · rintro (h | h)
          · exact h ▸ List.mem_cons_self a ys
          · exact h
      · simp only [setInsert, if_neg h1, if_neg h2, List.mem_cons, ih]
        constructor
        · rintro (h | h | h)
          · exact Or.inr (Or.inl h)
          · exact Or.inl h
          · exact Or.inr (Or.inr h)
        · rintro (h | h | h)
          · exact Or.inr (Or.inl h)
          · exact Or.inl h
          · exact Or.inr (Or.inr h)

theorem mapKeys_mapAdd (k v : Str) :
    ∀ m, mapKeys (mapAdd k v m) = setInsert k (mapKeys m)
  | [] => rfl
  | (k2, vs) :: rest => by
    by_cases h1 : strLt k k2 = true
    · simp [mapAdd, mapKeys, setInsert, h1]
    · by_cases h2 : k = k2
      · subst h2
        simp [mapAdd, mapKeys, setInsert, h1]
      · simp only [mapAdd, if_neg h1, if_neg h2, mapKeys, List.map_cons, setInsert]
        rw [show List.map Prod.fst (mapAdd k v rest) = mapKeys (mapAdd k v rest) from rfl,
          mapKeys_mapAdd k v rest]
        rfl

theorem setInsert_pairwise {x : Str} :
    ∀ {s : List Str}, s.Pairwise (fun a b => strLt a b = true) →
      (setInsert x s).Pairwise (fun a b => strLt a b = true) := by
  intro s
  induction s with
  | nil => intro _; simp [setInsert]
  | cons y ys ih =>
    intro hp
    rcases List.pairwise_cons.mp hp with ⟨hy, hys⟩
    rcases strLt_cases x y with ⟨h1, h2, h3⟩ | ⟨h1, h2, h3⟩ | ⟨h1, h2, h3⟩
    · rw [setInsert, if_pos h1]
      refine List.pairwise_cons.mpr ⟨?_, hp⟩
      intro z hz
      rcases List.mem_cons.mp hz with hz | hz
      · exact hz ▸ h1
      · exact strLt_trans h1 (hy z hz)
    · subst h1
      rw [setInsert, if_neg (by simp [h2]), if_pos rfl]
      exact hp
    · rw [setInsert, if_neg (by simp [h2]), if_neg h3]
      refine List.pairwise_cons.mpr ⟨?_, ih hys⟩
      intro z hz
      rcases mem_setInsert.mp hz with hz | hz
      · exact hz ▸ h1
      · exact hy z hz

theorem mapAdd_keys_pairwise {k v : Str} {m : List (Str × List Str)}
    (h : (mapKeys m).Pairwise (fun a b => strLt a b = true)) :
    (mapKeys (mapAdd k v m)).Pairwise (fun a b => strLt a b = true) := by
  rw [mapKeys_mapAdd]
  exact setInsert_pairwise h

theorem applyUpd_keys_pairwise {st : TreeSt} {u : TUpd}
    (h : (mapKeys st.directory_children).Pairwise (fun a b => strLt a b = true)) :
    (mapKeys (applyUpd st u).directory_children).Pairwise (fun a b => strLt a b = true) := by
  cases u with
  | apath p => exact h
  | edge k v => exact mapAdd_keys_pairwise h

theorem applyUpds_keys_pairwise :
    ∀ (us : List TUpd) (st : TreeSt),
      (mapKeys st.directory_children).Pairwise (fun a b => strLt a b = true) →
      (mapKeys (applyUpds st us).directory_children).Pairwise (fun a b => strLt a b = true)
  | [], _, h => h
  | u :: us, st, h =>
    applyUpds_keys_pairwise us (applyUpd st u) (applyUpd_keys_pairwise h)

theorem buildTreeSt_keys_pairwise :
    ∀ (files : List FPath) (st : TreeSt),
      (mapKeys st.directory_children).Pairwise (fun a b => strLt a b = true) →
      List.Pairwise (fun a b => strLt a b = true)
        (mapKeys (files.foldl (fun s f => applyUpds s (updsOfFile f)) st).directory_children)
  | [], _, h => h
  | f :: fs, st, h =>
    buildTreeSt_keys_pairwise fs (applyUpds st (updsOfFile f))
      (applyUpds_keys_pairwise (updsOfFile f) st h)

theorem applyUpds_cons (st : TreeSt) (u : TUpd) (us : List TUpd) :
    applyUpds st (u :: us) = applyUpds (applyUpd st u) us := rfl

/-- The parent keys of the edge insertions in an update list. -/
def edgeParents (us : List TUpd) : List Str :=
  us.filterMap (fun u => match u with | TUpd.edge k _ => some k | TUpd.apath _ => none)

theorem mem_keys_applyUpds :
    ∀ (us : List TUpd) (st : TreeSt) (x : Str),
      (x ∈ mapKeys (applyUpds st us).directory_children
        ↔ x ∈ edgeParents us ∨ x ∈ mapKeys st.directory_children)
  | [], st, x => by simp [applyUpds, edgeParents]
  | TUpd.apath p :: us, st, x => by
    rw [applyUpds_cons, mem_keys_applyUpds us (applyUpd st (TUpd.apath p)) x]
    simp [edgeParents, List.filterMap_cons, applyUpd]
  | TUpd.edge k v :: us, st, x => by
    rw [applyUpds_cons, mem_keys_applyUpds us (applyUpd st (TUpd.edge k v)) x]
    simp only [applyUpd, mapKeys_mapAdd, edgeParents, List.filterMap_cons, List.mem_cons]
    rw [mem_setInsert]
    tauto

theorem mem_keys_build :
    ∀ (files : List FPath) (st : TreeSt) (x : Str),
      (x ∈ mapKeys (TreeSt.directory_children
          (files.foldl (fun s f => applyUpds s (updsOfFile f)) st))
        ↔ (∃ f ∈ files, x ∈ edgeParents (updsOfFile f))
          ∨ x ∈ mapKeys st.directory_children)
  | [], st, x => by simp
  | f :: fs, st, x => by
    rw [List.foldl_cons]
    rw [show TreeSt.directory_children
        (fs.foldl (fun s g => applyUpds s (updsOfFile g)) (applyUpds st (updsOfFile f)))
      = TreeSt.directory_children
        (fs.foldl (fun s g => applyUpds s (updsOfFile g)) (applyUpds st (updsOfFile f)))
      from rfl]
    rw [mem_keys_build fs (applyUpds st (updsOfFile f)) x,
      mem_keys_applyUpds (updsOfFile f) st x]
    simp only [List.exists_mem_cons_iff]
    constructor
    · rintro (⟨g, hg, hp⟩ | h | h)
      · exact Or.inl (Or.inr ⟨g, hg, hp⟩)
      · exact Or.inl (Or.inl h)
      · exact Or.inr h
    · rintro ((h | ⟨g, hg, hp⟩) | h)
      · exact Or.inr (Or.inl h)
      · exact Or.inl ⟨g, hg, hp⟩
      · exact Or.inr (Or.inr h)

/-- The sequence of parent path strings visited by the per-part loop:
the accumulated current_path value before each extension. -/
def partsParents : Nat → Str → List Str → List Str
  | _, _, [] => []
  | i, current, part :: rest =>
    current ::
      partsParents (i + 1) (if i > 0 then current ++ '/' :: part else current ++ part) rest

theorem edgeParents_updsOfParts :
    ∀ (parts : List Str) (total i : Nat) (current : Str),
      edgeParents (updsOfParts total i current parts) = partsParents i current parts
  | [], _, _, _ => rfl
  | part :: rest, total, i, current => by
    have ih := edgeParents_updsOfParts rest total (i + 1)
        (if i > 0 then current ++ '/' :: part else current ++ part)
    simp only [updsOfParts, partsParents, edgeParents, List.filterMap_append,
      List.filterMap_cons] at ih ⊢
    by_cases h : i < total - 1 <;> simp [h, ih]

theorem joinSlash_cons (a : Str) (l : FPath) (h : l ≠ []) :
    joinSlash (a :: l) = a ++ '/' :: joinSlash l := by
  cases l with
  | nil => exact absurd rfl h
  | cons b bs => rfl

theorem joinSlash_append_singleton (pre : FPath) (p : Str) (h : pre ≠ []) :
    joinSlash (pre ++ [p]) = joinSlash pre ++ '/' :: p := by
  induction pre with
  | nil => exact absurd rfl h
  | cons a as ih =>
    cases as with
    | nil => rfl
    | cons b bs =>
      rw [List.cons_append, joinSlash_cons a ((b :: bs) ++ [p]) (by simp),
        ih (by simp), joinSlash_cons a (b :: bs) (by simp)]
      simp [List.append_assoc]

theorem splitSlash_ne_nil (s : Str) : splitSlash s ≠ [] := by
  cases s with
  | nil => simp [splitSlash]
  | cons c cs =>
    rw [splitSlash]
    by_cases h : c = '/'
    · simp [h]
    · rw [if_neg h]
      cases hs : splitSlash cs with
      | nil => simp
      | cons p ps => simp

theorem partsParents_joins :
    ∀ (parts pre : List Str), pre ≠ [] →
      partsParents pre.length (joinSlash pre) parts
        = (List.range parts.length).map (fun n => joinSlash (pre ++ parts.take n))
  | [], pre, _ => by simp [partsParents]
  | part :: rest, pre, h => by
    rw [partsParents]
    have hpos : 0 < pre.length := List.length_pos.mpr h
    rw [if_pos hpos, show joinSlash pre ++ '/' :: part = joinSlash (pre ++ [part]) from
      (joinSlash_append_singleton pre part h).symm]
    have hlen : (pre ++ [part]).length = pre.length + 1 := by simp
    have ih := partsParents_joins rest (pre ++ [part]) (by simp)
    rw [hlen] at ih
    rw [ih, List.length_cons, List.range_succ_eq_map, List.map_cons, List.map_map]
    congr 1
    · simp
    · congr 1
      funext n
      simp [List.append_assoc]

/-- The specification-side characterization of the directory nodes one
file path implies, written from the spec text for comparison with the
keys the builder produces: every strict, non-empty prefix ending at a
path separator boundary, i.e. for parts p0 .. p(n-1) the joins of the
first i parts for 1 <= i <= n - 1. -/
def specProperPrefixes (s : Str) : List Str :=
  (((List.range (splitSlash s).length).drop 1).map
    (fun n => joinSlash ((splitSlash s).take n))).filter (fun q => !q.isEmpty)

theorem edgeParents_updsOfFile (f : FPath) :
    edgeParents (updsOfFile f)
      = partsParents 0 [] (splitSlash (normalizeSlashes (joinSlash f))) := by
  unfold updsOfFile
  simp only [edgeParents, List.filterMap_cons]
  exact edgeParents_updsOfParts _ _ 0 []

theorem bnot_isEmpty_eq_true_iff (d : Str) : (!d.isEmpty) = true ↔ d ≠ [] := by
  cases d <;> simp

theorem mem_partsParents_iff_spec (s d : Str) :
    (d ∈ partsParents 0 [] (splitSlash s) ∧ d ≠ []) ↔ d ∈ specProperPrefixes s := by
  cases hp : splitSlash s with
  | nil => exact absurd hp (splitSlash_ne_nil s)
  | cons p rest =>
    have h2 := partsParents_joins rest [p] (by simp)
    have h1 : partsParents 0 [] (p :: rest)
        = [] :: (List.range rest.length).map (fun n => joinSlash ([p] ++ rest.take n)) := by
      rw [partsParents]
      simp only [gt_iff_lt, lt_self_iff_false, if_false, List.nil_append]
      exact congrArg (List.cons []) h2
    rw [h1]
    unfold specProperPrefixes
    rw [hp, List.length_cons, List.range_succ_eq_map]
    rw [show (0 :: (List.range rest.length).map Nat.succ).drop 1
      = (List.range rest.length).map Nat.succ from rfl]
    rw [List.map_map]
    have hfun : ((fun n => joinSlash ((p :: rest).take n)) ∘ Nat.succ)
        = fun n => joinSlash ([p] ++ rest.take n) := by
      funext n
      simp
    rw [hfun]
    constructor
    · rintro ⟨hmem, hne⟩
      rcases List.mem_cons.mp hmem with h | h
      · exact absurd h hne
      · refine List.mem_filter.mpr ⟨h, ?_⟩
        cases d with
        | nil => exact absurd rfl hne
        | cons c cl => rfl
    · intro hmem
      rcases List.mem_filter.mp hmem with ⟨h, hq⟩
      have hne : d ≠ [] := by
        intro hd
        subst hd
        simp at hq
      exact ⟨List.mem_cons.mpr (Or.inr h), hne⟩

/-- C6: the set of directory nodes the renderer derives from a file
list (the non-root keys of the parent-to-children map, i.e. the keys
with a non-empty path) is exactly the set of non-empty proper
slash-boundary prefixes of the listed normalized file paths, and each
such directory appears exactly once (the key list has no duplicates,
so a directory implied by several files occurs once and no key exists
that is not such a prefix). -/
theorem tree_directory_nodes_exact (files : List FPath) (d : Str) :
    (d ∈ (mapKeys (buildTreeSt files).directory_children).filter (fun q => !q.isEmpty)
      ↔ ∃ f ∈ files, d ∈ specProperPrefixes (normalizeSlashes (joinSlash f)))
    ∧ ((mapKeys (buildTreeSt files).directory_children).filter
        (fun q => !q.isEmpty)).Nodup := by
  unfold buildTreeSt
  constructor
  · rw [List.mem_filter]
    rw [mem_keys_build files ⟨[], []⟩ d]
    simp only [mapKeys, List.map_nil, List.not_mem_nil, or_false]
    constructor
    · rintro ⟨⟨f, hf, hd⟩, hne⟩
      refine ⟨f, hf, ?_⟩
      rw [edgeParents_updsOfFile] at hd
      exact (mem_partsParents_iff_spec _ d).mp ⟨hd, (bnot_isEmpty_eq_true_iff d).mp hne⟩
    · rintro ⟨f, hf, hd⟩
      have h2 := (mem_partsParents_iff_spec (normalizeSlashes (joinSlash f)) d).mpr hd
      exact ⟨⟨f, hf, by rw [edgeParents_updsOfFile]; exact h2.1⟩,
        (bnot_isEmpty_eq_true_iff d).mpr h2.2⟩
  · have hsorted := buildTreeSt_keys_pairwise files ⟨[], []⟩ (by simp [mapKeys])
    have hnd : (mapKeys ((files.foldl (fun s f => applyUpds s (updsOfFile f))
        ⟨[], []⟩)).directory_children).Nodup := by
      refine hsorted.imp ?_
      intro a b hab hEq
      subst hEq
      rw [strLt_irrefl] at hab
      exact Bool.noConfusion hab
    exact hnd.filter _

/-- The fixed banner line of the contents section: 48 equal signs and
a newline (src/src/main.rs lines 352 and 354). -/
def banner : Str := List.replicate 48 '=' ++ ['\n']

/-- The body rendered for one file (src/src/main.rs lines 356-366):
the file text with a newline appended when it lacks one, or the
placeholder when reading the file as text fails. The filesystem read
is factored out as a function from the relative path to the optional
text. -/
def fileBody (readF : FPath → Option Str) (f : FPath) : Str :=
  match readF f with
  | some content => content ++ (if content.getLast? == some '\n' then [] else ['\n'])
  | none => ("[Binary file or read error]\n").toList

/-- The full block emitted for one file: banner, FILE line, banner,
body (src/src/main.rs lines 352-366). -/
def fileBlock (readF : FPath → Option Str) (f : FPath) : Str :=
  banner ++ ("FILE: ").toList ++ joinSlash f ++ ['\n'] ++ banner ++ fileBody readF f

/-- One iteration of the contents loop: a separating newline before
every block except the first. -/
def contentsStep (readF : FPath → Option Str) (acc : Str) (ip : Nat × FPath) : Str :=
  acc ++ (if ip.1 > 0 then ['\n'] else []) ++ fileBlock readF ip.2

/-- generate_file_contents (src/src/main.rs lines 342-370): the
enumerated loop over the files appending each block. -/
def generate_file_contents (readF : FPath → Option Str) (files : List FPath) : Str :=
  (files.enum).foldl (contentsStep readF) []

/-- Blocks joined with a single newline separator. -/
def joinNL : List Str → Str
  | [] => []
  | [b] => b
  | b :: bs => b ++ '\n' :: joinNL bs

theorem joinNL_cons_eq (b : Str) (bs : List Str) :
    joinNL (b :: bs) = b ++ (bs.map (fun x => '\n' :: x)).flatten := by
  induction bs generalizing b with
  | nil => simp [joinNL]
  | cons c cs ih =>
    rw [show joinNL (b :: c :: cs) = b ++ '\n' :: joinNL (c :: cs) from rfl, ih c]
    simp [List.append_assoc]

theorem contentsStep_enumFrom (readF : FPath → Option Str) :
    ∀ (fs : List FPath) (n : Nat) (acc : Str),
      (List.enumFrom (n + 1) fs).foldl (contentsStep readF) acc
        = acc ++ ((fs.map (fun g => '\n' :: fileBlock readF g)).flatten)
  | [], _, acc => by simp
  | g :: gs, n, acc => by
    rw [List.enumFrom_cons, List.foldl_cons, contentsStep_enumFrom readF gs (n + 1)]
    simp [contentsStep, List.append_assoc]

/-- C8: generate_file_contents emits for each file, in list order, a
banner line, a FILE line with the relative path, another banner line,
then a body that always ends with a newline; a file that cannot be
read as text yields the placeholder marker in place of content and
processing continues (the output is the join of every per-file block);
consecutive blocks are separated by exactly one newline character,
which after the trailing newline of the previous block forms a single
blank line. -/
theorem generate_file_contents_blocks (readF : FPath → Option Str) (files : List FPath) :
    generate_file_contents readF files = joinNL (files.map (fileBlock readF))
    ∧ (∀ f, (fileBody readF f).getLast? = some '\n')
    ∧ (∀ f, readF f = none →
        fileBody readF f = ("[Binary file or read error]\n").toList) := by
  refine ⟨?_, ?_, ?_⟩
  · cases files with
    | nil => rfl
    | cons f fs =>
      rw [generate_file_contents,
        show List.enum (f :: fs) = (0, f) :: List.enumFrom 1 fs from rfl,
        List.foldl_cons,
        show contentsStep readF [] (0, f) = fileBlock readF f from by simp [contentsStep],
        contentsStep_enumFrom readF fs 0 (fileBlock readF f),
        List.map_cons, joinNL_cons_eq, List.map_map]
      rfl
  · intro f
    cases hr : readF f with
    | none =>
      simp only [fileBody, hr]
      decide
    | some content =>
      simp only [fileBody, hr]
      by_cases hc : (content.getLast? == some '\n') = true
      · rw [if_pos hc, List.append_nil]
        exact eq_of_beq hc
      · rw [if_neg hc]
        exact List.getLast?_concat content
  · intro f hr
    unfold fileBody
    rw [hr]

theorem generate_file_contents_blocks_witness :
    fileBody (fun _ => (none : Option Str)) [['a']]
      = ("[Binary file or read error]\n").toList
    ∧ generate_file_contents (fun _ => (none : Option Str)) [[['a']], [['b']]]
      = joinNL ([[['a']], [['b']]].map (fileBlock (fun _ => (none : Option Str)))) :=
  ⟨(generate_file_contents_blocks (fun _ => none) [[['a']], [['b']]]).2.2 [['a']] rfl,
   (generate_file_contents_blocks (fun _ => none) [[['a']], [['b']]]).1⟩

/-- estimate_tokens (src/src/main.rs lines 385-387): the char count of
the text divided by four with natural division. -/
def estimate_tokens (text : String) : Nat := text.length / 4

/-- C9: estimate_tokens is the Unicode code point count of its argument
divided by four with integer floor division; the empty string yields 0
and any four code point string, multi-byte code points included,
yields 1. -/
theorem estimate_tokens_floor_div (s : String) :
    estimate_tokens s = s.toList.length / 4
    ∧ (s.toList.length = 4 → estimate_tokens s = 1)
    ∧ estimate_tokens ("") = 0 := by
  have h : s.length = s.toList.length := rfl
  exact ⟨by rw [estimate_tokens, h], fun h4 => by rw [estimate_tokens, h, h4], rfl⟩

theorem estimate_tokens_floor_div_witness :
    estimate_tokens ("🦀🦀🦀🦀") = 1 :=
  (estimate_tokens_floor_div ("🦀🦀🦀🦀")).2.1 (by decide)
